import Mathlib

/-!
Verification development for a Python module that extracts structured JSON
from LLM output over OCR text of legal documents.

The Python source is shallowly embedded: strings are lists of characters,
fallible operations return Option, and the remote-model transport is
abstracted as an oracle argument so that theorems can quantify over every
possible response.  The regular-expression searches of the source are
embedded as explicit leftmost-match scans whose semantics were derived from
the concrete patterns used by the source.
-/

/-! Section: Character classes -/

/-- Backquote character, written via its code point. -/
def backtick : Char := Char.ofNat 96

/-- Opening curly brace character. -/
def lbrace : Char := Char.ofNat 123

/-- Closing curly brace character. -/
def rbrace : Char := Char.ofNat 125

/-- Double-quote character. -/
def dquote : Char := Char.ofNat 34

/-- Backslash character. -/
def bslash : Char := Char.ofNat 92

/-- Whitespace as recognised by the Python str.strip and by the regex class
for whitespace on text patterns (Unicode whitespace). -/
def isPySpace (c : Char) : Bool :=
  c = ' ' || ('\t' ≤ c && c ≤ '\r') || (28 ≤ c.toNat && c.toNat ≤ 31) || c.toNat = 133 ||
  c.toNat = 160 || c.toNat = 5760 || (8192 ≤ c.toNat && c.toNat ≤ 8202) || c.toNat = 8232 ||
  c.toNat = 8233 || c.toNat = 8239 || c.toNat = 8287 || c.toNat = 12288

/-- Whitespace skipped between JSON tokens by the Python json module. -/
def isJsonWs (c : Char) : Bool := c = ' ' || c = '\t' || c = '\n' || c = '\r'

/-- ASCII decimal digit test, as used by the json number grammar. -/
def isAsciiDigit (c : Char) : Bool := '0' ≤ c && c ≤ '9'

/-! Section: String utilities -/

/-- Python str.strip on a character list. -/
def pyStrip (l : List Char) : List Char :=
  ((l.dropWhile isPySpace).reverse.dropWhile isPySpace).reverse

/-- Python str.strip on a String. -/
def pyStripStr (s : String) : String := String.mk (pyStrip s.data)

/-- Character of a list at an index, as an Option. -/
def charAt (t : List Char) (i : Nat) : Option Char := t[i]?

/-- Literal pattern match at a position: true iff pat occurs in t starting at i. -/
def litAt : List Char → List Char → Nat → Bool
  | [], _, _ => true
  | c :: cs, t, i => (charAt t i == some c) && litAt cs t (i + 1)

/-- Length of the maximal whitespace prefix of a list. -/
def wsCount : List Char → Nat
  | [] => 0
  | c :: rest => if isPySpace c then wsCount rest + 1 else 0

/-- Length of the maximal whitespace run of t starting at position i. -/
def wsRun (t : List Char) (i : Nat) : Nat := wsCount (t.drop i)

/-- Leftmost index at or after i, within fuel steps, satisfying p. -/
def scanFirst (p : Nat → Bool) : Nat → Nat → Option Nat
  | _, 0 => none
  | i, Nat.succ fuel => if p i then some i else scanFirst p (i + 1) fuel

/-- Index of the first occurrence of character c in t. -/
def firstIdx (c : Char) (t : List Char) : Option Nat :=
  scanFirst (fun i => charAt t i == some c) 0 t.length

/-- Index of the last occurrence of character c in t. -/
def lastIdx (c : Char) (t : List Char) : Option Nat :=
  match scanFirst (fun k => charAt t (t.length - 1 - k) == some c) 0 t.length with
  | some k => some (t.length - 1 - k)
  | none => none

/-- Substring test including the empty pattern, mirroring the Python in operator. -/
def isSubstr (pat s : List Char) : Bool :=
  (scanFirst (fun i => litAt pat s i) 0 (s.length + 1)).isSome

/-! Section: JSON values and the json.loads parser

The Python side parses model output with json.loads.  The value universe is
embedded below; numbers keep their source lexeme, which is all the claims
need.  Objects keep Python dict semantics for duplicate keys: the first
occurrence keeps its position and the last occurrence wins the value. -/

/-- JSON value universe produced by the embedded json.loads. -/
inductive JsonVal where
  | null : JsonVal
  | bool (b : Bool) : JsonVal
  | num (lexeme : String) : JsonVal
  | str (s : String) : JsonVal
  | arr (items : List JsonVal) : JsonVal
  | obj (fields : List (String × JsonVal)) : JsonVal

/-- Insert a key into an association list with Python dict semantics:
replace in place when present, append when absent. -/
def insertKey (k : String) (v : JsonVal) : List (String × JsonVal) → List (String × JsonVal)
  | [] => [(k, v)]
  | (k0, v0) :: rest => if k0 = k then (k0, v) :: rest else (k0, v0) :: insertKey k v rest

/-- Dict lookup; keys are unique in parser-produced field lists. -/
def lookupJ (k : String) (fs : List (String × JsonVal)) : Option JsonVal :=
  match fs with
  | [] => none
  | (k0, v0) :: rest => if k0 = k then some v0 else lookupJ k rest

/-- Whether a value is a JSON object (a Python dict). -/
def JsonVal.isObj : JsonVal → Bool
  | .obj _ => true
  | _ => false

/-- Hex digit value for the uXXXX escape. -/
def hexVal (c : Char) : Option Nat :=
  if isAsciiDigit c then some (c.toNat - 48)
  else if 'a' ≤ c && c ≤ 'f' then some (c.toNat - 87)
  else if 'A' ≤ c && c ≤ 'F' then some (c.toNat - 55)
  else none

/-- Skip JSON inter-token whitespace. -/
def skipJsonWs (l : List Char) : List Char := l.dropWhile isJsonWs

/-- Parse the body of a JSON string after the opening quote, strict mode:
raw control characters are rejected, the standard escapes and uXXXX escapes
(with surrogate-pair combination) are decoded. -/
def parseStringBody : Nat → List Char → List Char → Option (String × List Char)
  | 0, _, _ => none
  | Nat.succ fuel, l, acc =>
    match l with
    | [] => none
    | c :: rest =>
      if c = dquote then some (String.mk acc.reverse, rest)
      else if c = bslash then
        match rest with
        | [] => none
        | e :: r2 =>
          if e = dquote then parseStringBody fuel r2 (dquote :: acc)
          else if e = bslash then parseStringBody fuel r2 (bslash :: acc)
          else if e = '/' then parseStringBody fuel r2 ('/' :: acc)
          else if e = 'b' then parseStringBody fuel r2 (Char.ofNat 8 :: acc)
          else if e = 'f' then parseStringBody fuel r2 (Char.ofNat 12 :: acc)
          else if e = 'n' then parseStringBody fuel r2 ('\n' :: acc)
          else if e = 'r' then parseStringBody fuel r2 ('\r' :: acc)
          else if e = 't' then parseStringBody fuel r2 ('\t' :: acc)
          else if e = 'u' then
            match r2 with
            | h1 :: h2 :: h3 :: h4 :: r3 =>
              match hexVal h1, hexVal h2, hexVal h3, hexVal h4 with
              | some a, some b, some c2, some d =>
                let code := 4096 * a + 256 * b + 16 * c2 + d
                if 55296 ≤ code && code ≤ 56319 then
                  match r3 with
                  | u1 :: u2 :: g1 :: g2 :: g3 :: g4 :: r4 =>
                    if u1 = bslash && u2 = 'u' then
                      match hexVal g1, hexVal g2, hexVal g3, hexVal g4 with
                      | some a2, some b2, some c3, some d2 =>
                        let lo := 4096 * a2 + 256 * b2 + 16 * c3 + d2
                        if 56320 ≤ lo && lo ≤ 57343 then
                          parseStringBody fuel r4
                            (Char.ofNat (65536 + 1024 * (code - 55296) + (lo - 56320)) :: acc)
                        else parseStringBody fuel r3 (Char.ofNat code :: acc)
                      | _, _, _, _ => parseStringBody fuel r3 (Char.ofNat code :: acc)
                    else parseStringBody fuel r3 (Char.ofNat code :: acc)
                  | _ => parseStringBody fuel r3 (Char.ofNat code :: acc)
                else parseStringBody fuel r3 (Char.ofNat code :: acc)
              | _, _, _, _ => none
            | _ => none
          else none
      else if c.toNat < 32 then none
      else parseStringBody fuel rest (c :: acc)

/-- Parse a JSON number with the grammar of the Python json scanner:
optional minus, integer part without leading zeros, optional fraction,
optional exponent.  The lexeme is kept verbatim. -/
def parseNumber (l : List Char) : Option (JsonVal × List Char) :=
  let signSplit : List Char × List Char :=
    match l with
    | c :: rest => if c = '-' then (['-'], rest) else ([], l)
    | [] => ([], [])
  let sign := signSplit.1
  let l1 := signSplit.2
  match l1 with
  | [] => none
  | c :: _ =>
    if ¬ isAsciiDigit c then none
    else
      let intPart : List Char × List Char :=
        if c = '0' then (['0'], l1.drop 1)
        else (l1.takeWhile isAsciiDigit, l1.dropWhile isAsciiDigit)
      let ip := intPart.1
      let r1 := intPart.2
      let fracPart : List Char × List Char :=
        match r1 with
        | '.' :: rest =>
          let ds := rest.takeWhile isAsciiDigit
          if ds.isEmpty then ([], r1) else ('.' :: ds, rest.dropWhile isAsciiDigit)
        | _ => ([], r1)
      let fp := fracPart.1
      let r2 := fracPart.2
      let expPart : List Char × List Char :=
        match r2 with
        | e :: rest =>
          if e = 'e' || e = 'E' then
            match rest with
            | s :: rest2 =>
              if s = '+' || s = '-' then
                let ds := rest2.takeWhile isAsciiDigit
                if ds.isEmpty then ([], r2) else (e :: s :: ds, rest2.dropWhile isAsciiDigit)
              else
                let ds := rest.takeWhile isAsciiDigit
                if ds.isEmpty then ([], r2) else (e :: ds, rest.dropWhile isAsciiDigit)
            | [] => ([], r2)
          else ([], r2)
        | [] => ([], r2)
      some (JsonVal.num (String.mk (sign ++ ip ++ fp ++ expPart.1)), expPart.2)

mutual

/-- Parse one JSON value from the front of the list. -/
def parseValue : Nat → List Char → Option (JsonVal × List Char)
  | 0, _ => none
  | Nat.succ fuel, l =>
    match l with
    | [] => none
    | c :: rest =>
      if c = lbrace then
        match skipJsonWs rest with
        | c2 :: r2 => if c2 = rbrace then some (JsonVal.obj [], r2) else parseMembers fuel (c2 :: r2) []
        | [] => none
      else if c = '[' then
        match skipJsonWs rest with
        | c2 :: r2 => if c2 = ']' then some (JsonVal.arr [], r2) else parseElems fuel (c2 :: r2) []
        | [] => none
      else if c = dquote then
        match parseStringBody (Nat.succ fuel) rest [] with
        | some (s, r2) => some (JsonVal.str s, r2)
        | none => none
      else
        match l with
        | 't' :: 'r' :: 'u' :: 'e' :: r2 => some (JsonVal.bool true, r2)
        | 'f' :: 'a' :: 'l' :: 's' :: 'e' :: r2 => some (JsonVal.bool false, r2)
        | 'n' :: 'u' :: 'l' :: 'l' :: r2 => some (JsonVal.null, r2)
        | 'N' :: 'a' :: 'N' :: r2 => some (JsonVal.num "NaN", r2)
        | 'I' :: 'n' :: 'f' :: 'i' :: 'n' :: 'i' :: 't' :: 'y' :: r2 => some (JsonVal.num "Infinity", r2)
        | '-' :: 'I' :: 'n' :: 'f' :: 'i' :: 'n' :: 'i' :: 't' :: 'y' :: r2 => some (JsonVal.num "-Infinity", r2)
        | _ => parseNumber l

/-- Parse object members after the opening brace and whitespace. -/
def parseMembers : Nat → List Char → List (String × JsonVal) → Option (JsonVal × List Char)
  | 0, _, _ => none
  | Nat.succ fuel, l, acc =>
    match l with
    | c :: rest =>
      if c = dquote then
        match parseStringBody fuel rest [] with
        | some (key, r1) =>
          match skipJsonWs r1 with
          | c2 :: r2 =>
            if c2 = ':' then
              match parseValue fuel (skipJsonWs r2) with
              | some (v, r3) =>
                match skipJsonWs r3 with
                | c3 :: r4 =>
                  if c3 = ',' then parseMembers fuel (skipJsonWs r4) (insertKey key v acc)
                  else if c3 = rbrace then some (JsonVal.obj (insertKey key v acc), r4)
                  else none
                | [] => none
              | none => none
            else none
          | [] => none
        | none => none
      else none
    | [] => none

/-- Parse array elements after the opening bracket and whitespace. -/
def parseElems : Nat → List Char → List JsonVal → Option (JsonVal × List Char)
  | 0, _, _ => none
  | Nat.succ fuel, l, acc =>
    match parseValue fuel l with
    | some (v, r1) =>
      match skipJsonWs r1 with
      | c2 :: r2 =>
        if c2 = ',' then parseElems fuel (skipJsonWs r2) (acc ++ [v])
        else if c2 = ']' then some (JsonVal.arr (acc ++ [v]), r2)
        else none
      | [] => none
    | none => none

end

/-- Embedded json.loads on a character list: a whole-input parse with
surrounding whitespace allowed; none models a raised JSONDecodeError. -/
def jsonLoadsList (l : List Char) : Option JsonVal :=
  let l1 := skipJsonWs l
  match parseValue (2 * l1.length + 8) l1 with
  | some (j, rest) => if (skipJsonWs rest).isEmpty then some j else none
  | none => none

/-- Embedded json.loads on a String. -/
def json_loads (s : String) : Option JsonVal := jsonLoadsList s.data

/-! Section: The JSON recovery pipeline of the source

The source first strips an enclosing code fence, then searches in order for
a json-tagged fenced object, any fenced object, and finally the greedy span
from the first opening brace to the last closing brace; the chosen span is
stripped and, when its first opening brace is not at position 0, the prefix
before the brace is trimmed.  Each regex of the source is embedded as an
explicit leftmost scan. -/

/-- Three backquotes, the fence delimiter. -/
def fence3 : List Char := [backtick, backtick, backtick]

/-- Fence delimiter tagged with json. -/
def fjTag : List Char := fence3 ++ ['j', 's', 'o', 'n']

/-- After a closing brace: skip the maximal whitespace run, then require a
fence.  This is the backtracking-free residue of the trailing part of the
fenced-block patterns. -/
def followFence (t : List Char) (k : Nat) : Bool := litAt fence3 t (k + wsRun t k)

/-- Candidate closing position for a fenced object: a closing brace whose
following whitespace run ends at a fence. -/
def closePred (t : List Char) (j : Nat) : Bool := (charAt t j == some rbrace) && followFence t (j + 1)

/-- Match of a fenced-object pattern anchored at position i: the tag, a
whitespace run, an opening brace, then the lazily chosen closing brace.
Returns the brace-delimited group. -/
def matchFencedAt (tag t : List Char) (i : Nat) : Option (List Char) :=
  if litAt tag t i then
    let q := i + tag.length + wsRun t (i + tag.length)
    if charAt t q == some lbrace then
      match scanFirst (closePred t) (q + 1) (t.length - (q + 1)) with
      | some j => some ((t.drop q).take (j + 1 - q))
      | none => none
    else none
  else none

/-- Leftmost fenced-object match in t, as re.search does. -/
def searchFenced (tag t : List Char) : Option (List Char) :=
  match scanFirst (fun i => (matchFencedAt tag t i).isSome) 0 t.length with
  | some i => matchFencedAt tag t i
  | none => none

/-- Greedy brace-span search: the first opening brace through the last
closing brace, provided the latter comes later. -/
def searchGreedy (t : List Char) : Option (List Char) :=
  match firstIdx lbrace t, lastIdx rbrace t with
  | some p, some j => if p < j then some ((t.drop p).take (j + 1 - p)) else none
  | _, _ => none

/-- Removal of the opening fence: the fence, an optional json tag, and the
following whitespace run. -/
def stripOpenFence (l : List Char) : List Char :=
  let l1 := l.drop 3
  let l2 := if l1.take 4 = ['j', 's', 'o', 'n'] then l1.drop 4 else l1
  l2.dropWhile isPySpace

/-- Removal of a trailing fence together with the whitespace run before it,
when the text ends with a fence. -/
def stripCloseFence (l : List Char) : List Char :=
  let r := l.reverse
  if r.take 3 = fence3 then ((r.drop 3).dropWhile isPySpace).reverse else l

/-- Stripping plus fence removal: the preprocessing the source applies to
the raw model text before the span searches. -/
def preprocess (s : List Char) : List Char :=
  let txt := pyStrip s
  if txt.take 3 = fence3 then pyStrip (stripCloseFence (stripOpenFence txt)) else txt

/-- Span selection in the precedence order of the source: json-tagged fence,
any fence, greedy brace span. -/
def selectSpan (t : List Char) : Option (List Char) :=
  match searchFenced fjTag t with
  | some g => some g
  | none =>
    match searchFenced fence3 t with
    | some g => some g
    | none => searchGreedy t

/-- Trim everything before the first opening brace when that brace is not at
position 0, as the source does just before parsing. -/
def trimToBrace (c : List Char) : List Char :=
  match firstIdx lbrace c with
  | some f => if 0 < f then c.drop f else c
  | none => c

/-- The exact string handed to json.loads by the source for a given input. -/
def cleanCandidate (s : List Char) : List Char :=
  let t := preprocess s
  trimToBrace (pyStrip ((selectSpan t).getD t))

/-- The fixed error object the source returns when parsing fails. -/
def errObj (raw : String) : JsonVal :=
  JsonVal.obj [("error", JsonVal.str "Invalid JSON output from model"), ("raw", JsonVal.str raw)]

/-- Embedding of the source JSON recovery function: select the candidate
span, parse it, and on failure return the fixed error object carrying the
candidate as raw. -/
def _extract_json_from_text (full_text : String) : JsonVal :=
  let clean := cleanCandidate full_text.data
  match jsonLoadsList clean with
  | some j => j
  | none => errObj (String.mk clean)

example : _extract_json_from_text "Here is the result: \x7b\"a\": 1\x7d Thanks!" =
    JsonVal.obj [("a", JsonVal.num "1")] := rfl

example : _extract_json_from_text "not json at all" = errObj "not json at all" := rfl

/-! Section: Line splitting and the keyword detector -/

/-- Line-boundary characters recognised by Python splitlines, excluding the
carriage return which is handled together with the CRLF pair. -/
def isLineBreakChar (c : Char) : Bool :=
  c = '\n' || c.toNat = 11 || c.toNat = 12 || c.toNat = 28 || c.toNat = 29 || c.toNat = 30 ||
  c.toNat = 133 || c.toNat = 8232 || c.toNat = 8233

/-- Python splitlines accumulator: no empty final line is produced after a
trailing boundary, and CRLF counts as one boundary. -/
def splitLinesAux : List Char → List Char → List (List Char)
  | [], cur => if cur.isEmpty then [] else [cur.reverse]
  | '\r' :: '\n' :: rest2, cur => cur.reverse :: splitLinesAux rest2 []
  | c :: rest, cur =>
    if c = '\r' then cur.reverse :: splitLinesAux rest []
    else if isLineBreakChar c then cur.reverse :: splitLinesAux rest []
    else splitLinesAux rest (c :: cur)

/-- Python splitlines. -/
def splitLines (l : List Char) : List (List Char) := splitLinesAux l []

/-- Embedding of clean_lines: strip the text, split into lines, strip each
line and keep the non-empty ones. -/
def clean_lines (text : String) : List String :=
  ((splitLines (pyStrip text.data)).map (fun l => String.mk (pyStrip l))).filter
    (fun x => x ≠ "")

/-- Python str containment on Strings. -/
def isSubstrStr (pat s : String) : Bool := isSubstr pat.data s.data

/-- Join a list of strings with a single-space separator. -/
def joinSpace (l : List String) : String :=
  match l with
  | [] => ""
  | h :: t => t.foldl (fun acc x => acc ++ " " ++ x) h

/-- Embedding of detect_type_and_source: scan a two-line window for the
first matching type keyword, then scan the (possibly shifted) source window
line by line, taking in each line the first keyword in list order and
accepting the first truthy hit. -/
def detect_type_and_source (text : String) (type_keywords source_keywords : List String) :
    Option String × Option String :=
  let lines := clean_lines text
  let scan_for_type := joinSpace (lines.take 2)
  let article_type := type_keywords.find? (fun t => isSubstrStr t scan_for_type)
  let typeTruthy : Bool :=
    match article_type with
    | some t => t ≠ ""
    | none => false
  let source_lines := if typeTruthy then (lines.drop 1).take 2 else lines.take 2
  let article_source := source_lines.findSome? (fun ln =>
    match source_keywords.find? (fun s => isSubstrStr s ln) with
    | some hit => if hit = "" then none else some hit
    | none => none)
  (article_type, article_source)

/-! Section: Text assembler

The directory is embedded as the list of file names and contents the glob
over the folder yields, in directory order. -/

/-- Whether a file name is selected: a txt file whose name starts with a
digit run followed by an underscore. -/
def matchesNumTxt (name : String) : Bool :=
  let ds := name.data.takeWhile isAsciiDigit
  (!ds.isEmpty) && (charAt name.data ds.length == some '_') &&
    litAt ".txt".data name.data (name.length - 4) && decide (4 ≤ name.length)

/-- Numeric value of the digit prefix of a file name. -/
def numKey (name : String) : Nat :=
  (name.data.takeWhile isAsciiDigit).foldl (fun n c => 10 * n + (c.toNat - 48)) 0

/-- Stable insertion into a list sorted ascending by the numeric key: the
inserted element precedes later-listed elements with an equal key. -/
def insertByKey (x : String × String) : List (String × String) → List (String × String)
  | [] => [x]
  | y :: ys => if numKey x.1 ≤ numKey y.1 then x :: y :: ys else y :: insertByKey x ys

/-- Stable ascending sort by the numeric prefix, as Python sorted with an
int key behaves. -/
def sortByKey (l : List (String × String)) : List (String × String) :=
  l.foldr insertByKey []

/-- Embedding of combine_article_texts on a directory listing: select the
numbered txt files, sort them by numeric prefix, strip each content and join
with single spaces, stripping the result; an empty selection yields the
empty string. -/
def combine_article_texts (dir : List (String × String)) : String :=
  let txts := sortByKey (dir.filter (fun p => matchesNumTxt p.1))
  if txts.isEmpty then ""
  else pyStripStr (joinSpace (txts.map (fun p => pyStripStr p.2)))

/-! Section: Streaming accumulator

A stream is embedded as the list of its events; an event either carries a
decoded chunk string or does not.  Python truthiness decides whether a
delta text is appended, and the final join fails when a non-string was
appended. -/

/-- Python truthiness of a JSON value: empty containers, empty strings,
null, false and numeric zero are falsy. -/
def truthy : JsonVal → Bool
  | .null => false
  | .bool b => b
  | .num lx =>
    let mant := lx.data.takeWhile (fun c => c ≠ 'e' ∧ c ≠ 'E')
    let ds := mant.filter isAsciiDigit
    ds.isEmpty || !(ds.all (fun c => c = '0'))
  | .str s => s ≠ ""
  | .arr items => !items.isEmpty
  | .obj fields => !fields.isEmpty

/-- Delta text value of one chunk: the chunk must parse as JSON to a dict,
whose delta field (defaulting to an empty dict) must be a dict; the result
is that delta dict text value; any shape error is swallowed and yields nothing,
as the per-event try/except of the source does. -/
def deltaTextVal (c : String) : Option JsonVal :=
  match json_loads c with
  | some (JsonVal.obj fields) =>
    match (lookupJ "delta" fields).getD (JsonVal.obj []) with
    | JsonVal.obj dfields => lookupJ "text" dfields
    | _ => none
  | _ => none

/-- Value appended to the accumulator for one chunk: its delta text value
when that value is truthy. -/
def chunkAppend (c : String) : Option JsonVal :=
  match deltaTextVal c with
  | some v => if truthy v then some v else none
  | none => none

/-- Final string join over accumulated values: fails when any accumulated
value is not a string, as the join of the source would. -/
def joinAll : List JsonVal → Option String
  | [] => some ""
  | JsonVal.str s :: rest =>
    match joinAll rest with
    | some r => some (s ++ r)
    | none => none
  | _ :: _ => none

/-- Embedding of the streaming accumulator: fold the events, appending each
chunk truthy delta text, then join; none models an exception escaping the
call. -/
def _invoke_streaming (events : List (Option String)) : Option String :=
  let out := events.foldl (fun acc ev =>
    match ev with
    | none => acc
    | some c => acc ++ (chunkAppend c).toList) []
  joinAll out

/-! Section: Decision extractor and subtype classifier

The schema file read and the remote call are abstracted as oracle
arguments, so a theorem quantifying over them states independence from the
file system and the network. -/

/-- Prompt template of the decision extractor, as the f-string of the
source builds it. -/
def kararPrompt (schema ocr : String) : String :=
  pyStripStr ("You are a legal document parser. You will receive the OCR text of a Lebanese قرار (karar / administrative decision). Extract the following fields:\n\n"
    ++ schema
    ++ "\n\nDo not hallucinate content. If a feature is missing from the article, return `null` for that feature (or an empty object/list if applicable).\n\n### Example Input:\n"
    ++ ocr
    ++ "\n\n### Output Format (in JSON):")

/-- Embedding of extract_attributes_streaming_kararat: a non-decision
subtype short-circuits to the unsupported-subtype object before the schema
oracle or the stream oracle is consulted; none models a raised exception. -/
def extract_attributes_streaming_kararat (subtype ocr_text : String)
    (schemaRead : Option String) (stream : String → Option String) : Option JsonVal :=
  let st := pyStripStr (if subtype = "" then "" else subtype)
  if st = "قرار" then
    match schemaRead with
    | none => none
    | some schema =>
      match stream (kararPrompt schema ocr_text) with
      | none => none
      | some full => some (_extract_json_from_text full)
  else some (JsonVal.obj [("error", JsonVal.str "Unsupported subtype"), ("subtype", JsonVal.str st)])

/-- Text extracted from a classification response body the way the source
indexes it: the content list (defaulting to a singleton empty dict), its
first item, and that item text value (defaulting to the empty string)
when the value is a string. -/
def bodyText (body : JsonVal) : Option String :=
  match body with
  | JsonVal.obj fields =>
    match (lookupJ "content" fields).getD (JsonVal.arr [JsonVal.obj []]) with
    | JsonVal.arr items =>
      match items with
      | [] => none
      | item :: _ =>
        match item with
        | JsonVal.obj ifields =>
          match (lookupJ "text" ifields).getD (JsonVal.str "") with
          | JsonVal.str s => some s
          | _ => none
        | _ => none
    | _ => none
  | _ => none

/-- Embedding of detect_subtype_with_claude: the transport is abstracted as
an optional response body, none modelling an exception during the call or
the body read; every parsing failure degrades to the unknown label, and an
empty trimmed answer also degrades to it. -/
def detect_subtype_with_claude (resp : Option String) : String :=
  match resp with
  | none => "unknown"
  | some raw =>
    match json_loads raw with
    | none => "unknown"
    | some body =>
      match bodyText body with
      | none => "unknown"
      | some s => if pyStripStr s = "" then "unknown" else pyStripStr s

example : detect_subtype_with_claude (some "\x7b\"content\": [\x7b\"text\": \" قرار \"\x7d]\x7d") = "قرار" := rfl
example : detect_subtype_with_claude (some "\x7b\"content\": []\x7d") = "unknown" := rfl
example : detect_subtype_with_claude none = "unknown" := rfl
example : _invoke_streaming [some "\x7b\"delta\": \x7b\"text\": \"Hel\"\x7d\x7d", some "not json", none,
    some "\x7b\"x\": 1\x7d", some "\x7b\"delta\": \x7b\"text\": \"lo\"\x7d\x7d"] = some "Hello" := rfl
example : _invoke_streaming [some "\x7b\"delta\": \x7b\"text\": 5\x7d\x7d"] = none := rfl
example : combine_article_texts [("2_b.txt", " B "), ("10_a.txt", "C"), ("1_x.txt", "A"), ("x.txt", "no"), ("3_nontxt", "no")] = "A B C" := rfl
example : detect_type_and_source "قرار رقم 1\nصادر عن بلدية بيروت" ["قرار"] ["بلدية"] =
    (some "قرار", some "بلدية") := rfl

/-! Section: Specification-side definitions

The following definitions transcribe claim statements (rather than the
source) so that refinement and counterexample theorems can compare the two. -/

/-- Claim-side detector: the source keyword is chosen as the first keyword
in list order that is a substring of the joined shifted window. -/
def claimDetect (text : String) (type_keywords source_keywords : List String) :
    Option String × Option String :=
  let lines := clean_lines text
  let w := joinSpace (lines.take 2)
  let ty := type_keywords.find? (fun t => isSubstrStr t w)
  let sw := if ty.isSome then joinSpace ((lines.drop 1).take 2) else joinSpace (lines.take 2)
  (ty, source_keywords.find? (fun s => isSubstrStr s sw))

/-- Amended detector source scan: walk the window lines in order; in each
line take the first keyword in list order that is a substring; the first
line whose hit is non-empty decides. -/
def amendedSourceScan (source_keywords : List String) : List String → Option String
  | [] => none
  | ln :: rest =>
    match source_keywords.find? (fun s => isSubstrStr s ln) with
    | some hit => if hit = "" then amendedSourceScan source_keywords rest else some hit
    | none => amendedSourceScan source_keywords rest

/-- Amended detector: type from the joined two-line window, source from the
per-line scan of the window that is shifted when a non-empty type was found. -/
def amendedDetect (text : String) (type_keywords source_keywords : List String) :
    Option String × Option String :=
  let lines := clean_lines text
  let w := joinSpace (lines.take 2)
  let ty := type_keywords.find? (fun t => isSubstrStr t w)
  let shifted :=
    match ty with
    | some t => if t = "" then lines.take 2 else (lines.drop 1).take 2
    | none => lines.take 2
  (ty, amendedSourceScan source_keywords shifted)

/-- Claim-side assembler: stripped contents of the selected files joined
with single spaces, with no final strip. -/
def claimCombine (dir : List (String × String)) : String :=
  joinSpace ((sortByKey (dir.filter (fun p => matchesNumTxt p.1))).map (fun p => pyStripStr p.2))

/-- Claim-side delta text of a chunk: present when the chunk parses as
JSON to a dict whose delta dict holds a non-empty string text field. -/
def specDeltaText (c : String) : Option String :=
  match deltaTextVal c with
  | some (JsonVal.str s) => if s = "" then none else some s
  | _ => none

/-- Concatenation of a list of strings with no separator. -/
def concatAll : List String → String
  | [] => ""
  | s :: rest => s ++ concatAll rest

/-- Claim-side streaming result: the concatenation, in emission order, of
the non-empty delta texts of the chunk events that parse as JSON. -/
def claimStreamResult (events : List (Option String)) : Option String :=
  some (concatAll (events.filterMap (fun ev => ev.bind specDeltaText)))

/-- Whether an events appended value, if any, is a string; chunks whose
truthy delta text is a non-string value violate this. -/
def stringly (ev : Option String) : Bool :=
  match ev with
  | none => true
  | some c =>
    match chunkAppend c with
    | some (JsonVal.str _) => true
    | some _ => false
    | none => true

/-! Section: Helper lemmas for the refinement theorems -/

lemma findSome_eq_amendedScan (sks : List String) :
    ∀ lines : List String,
      lines.findSome? (fun ln =>
        match sks.find? (fun s => isSubstrStr s ln) with
        | some hit => if hit = "" then none else some hit
        | none => none) = amendedSourceScan sks lines := by
  intro lines
  induction lines with
  | nil => rfl
  | cons ln rest ih =>
    rw [List.findSome?_cons]
    unfold amendedSourceScan
    cases hf : sks.find? (fun s => isSubstrStr s ln) with
    | none => exact ih
    | some hit =>
      by_cases hh : hit = ""
      · simp [hh, ih]
      · simp only [if_neg hh]

lemma streamFold_eq_filterMap :
    ∀ (events : List (Option String)) (acc : List JsonVal),
      events.foldl (fun acc ev =>
        match ev with
        | none => acc
        | some c => acc ++ (chunkAppend c).toList) acc
      = acc ++ events.filterMap (fun ev => ev.bind chunkAppend) := by
  intro events
  induction events with
  | nil => intro acc; simp [List.filterMap]
  | cons e rest ih =>
    intro acc
    cases e with
    | none =>
      simp only [List.foldl_cons, List.filterMap_cons, Option.none_bind]
      exact ih acc
    | some c =>
      simp only [List.foldl_cons, List.filterMap_cons, Option.some_bind,
        ih (acc ++ (chunkAppend c).toList)]
      cases hc : chunkAppend c with
      | none => simp [Option.toList]
      | some v => simp [Option.toList]

lemma chunkAppend_of_stringly (c : String) (h : stringly (some c) = true) :
    chunkAppend c = (specDeltaText c).map JsonVal.str := by
  have h2 : (match chunkAppend c with
    | some (JsonVal.str _) => true
    | some _ => false
    | none => true) = true := h
  unfold chunkAppend specDeltaText at *
  cases hv : deltaTextVal c with
  | none => rfl
  | some v =>
    rw [hv] at h2
    dsimp only at h2 ⊢
    cases v with
    | str s =>
      by_cases hs : s = ""
      · subst hs; rfl
      · simp [truthy, hs]
    | null => rfl
    | bool b =>
      cases b with
      | false => rfl
      | true => simp [truthy] at h2
    | num lx =>
      by_cases htr : truthy (JsonVal.num lx) = true
      · rw [if_pos htr] at h2; simp at h2
      · rw [if_neg htr]; rfl
    | arr items =>
      by_cases htr : truthy (JsonVal.arr items) = true
      · rw [if_pos htr] at h2; simp at h2
      · rw [if_neg htr]; rfl
    | obj fs2 =>
      by_cases htr : truthy (JsonVal.obj fs2) = true
      · rw [if_pos htr] at h2; simp at h2
      · rw [if_neg htr]; rfl

lemma filterMap_str_of_stringly :
    ∀ (events : List (Option String)), (∀ ev ∈ events, stringly ev = true) →
      events.filterMap (fun ev => ev.bind chunkAppend)
      = (events.filterMap (fun ev => ev.bind specDeltaText)).map JsonVal.str := by
  intro events h
  induction events with
  | nil => rfl
  | cons e rest ih =>
    have he : stringly e = true := h e (List.mem_cons_self e rest)
    have hrest := ih (fun ev hev => h ev (List.mem_cons_of_mem e hev))
    cases e with
    | none =>
      simp only [List.filterMap_cons, Option.none_bind]
      exact hrest
    | some c =>
      have hc := chunkAppend_of_stringly c he
      simp only [List.filterMap_cons, Option.some_bind, hc]
      cases hs : specDeltaText c with
      | none => simpa using hrest
      | some s => simp [hrest]

lemma joinAll_map_str : ∀ l : List String, joinAll (l.map JsonVal.str) = some (concatAll l) := by
  intro l
  induction l with
  | nil => rfl
  | cons s rest ih => simp only [List.map_cons, joinAll, ih, concatAll]

/-! Section: Claim theorems -/

/-- C1: JSON recovery is total in the embedding, and whenever the selected
candidate fails to parse it returns exactly the fixed error object whose
raw field is the string that was handed to the parser; in particular the
spec concrete example holds. -/
theorem c1_json_recovery_error_shape :
    (∀ s : String, jsonLoadsList (cleanCandidate s.data) = none →
      _extract_json_from_text s = errObj (String.mk (cleanCandidate s.data))) ∧
    _extract_json_from_text "not json at all" = errObj "not json at all" := by
  constructor
  · intro s h
    unfold _extract_json_from_text
    dsimp only
    rw [h]
  · rfl

/-- C1 witness: the theorem applied at a concrete unparsable input. -/
theorem c1_witness :
    _extract_json_from_text "zzz" = errObj (String.mk (cleanCandidate "zzz".data)) :=
  c1_json_recovery_error_shape.1 "zzz" (by rfl)

/-- C2: the candidate span is chosen with the precedence json-tagged fence,
then any fence, then the greedy brace span, else the whole preprocessed
text, and the chosen span is stripped and trimmed to its first opening
brace; the two concrete examples of the spec evaluate accordingly. -/
theorem c2_candidate_precedence :
    (∀ (s : List Char) (g : List Char), searchFenced fjTag (preprocess s) = some g →
      cleanCandidate s = trimToBrace (pyStrip g)) ∧
    (∀ (s : List Char) (g : List Char), searchFenced fjTag (preprocess s) = none →
      searchFenced fence3 (preprocess s) = some g →
      cleanCandidate s = trimToBrace (pyStrip g)) ∧
    (∀ (s : List Char) (g : List Char), searchFenced fjTag (preprocess s) = none →
      searchFenced fence3 (preprocess s) = none → searchGreedy (preprocess s) = some g →
      cleanCandidate s = trimToBrace (pyStrip g)) ∧
    (∀ s : List Char, searchFenced fjTag (preprocess s) = none →
      searchFenced fence3 (preprocess s) = none → searchGreedy (preprocess s) = none →
      cleanCandidate s = trimToBrace (pyStrip (preprocess s))) ∧
    _extract_json_from_text "Here is the result: \x7b\"a\": 1\x7d Thanks!" =
      JsonVal.obj [("a", JsonVal.num "1")] ∧
    _extract_json_from_text "```json\n\x7b\"a\": 1\x7d\n```" =
      JsonVal.obj [("a", JsonVal.num "1")] := by
  refine ⟨?_, ?_, ?_, ?_, rfl, rfl⟩
  · intro s g h
    unfold cleanCandidate selectSpan
    dsimp only
    rw [h]
    rfl
  · intro s g h1 h2
    unfold cleanCandidate selectSpan
    dsimp only
    rw [h1, h2]
    rfl
  · intro s g h1 h2 h3
    unfold cleanCandidate selectSpan
    dsimp only
    rw [h1, h2, h3]
    rfl
  · intro s h1 h2 h3
    unfold cleanCandidate selectSpan
    dsimp only
    rw [h1, h2, h3]
    rfl

/-- C2 witness: the precedence theorem applied at a concrete input carrying
a json-tagged fenced object. -/
theorem c2_witness :
    cleanCandidate "x ```json \x7b\"k\": 2\x7d ``` y".data =
      trimToBrace (pyStrip "\x7b\"k\": 2\x7d".data) :=
  c2_candidate_precedence.1 "x ```json \x7b\"k\": 2\x7d ``` y".data "\x7b\"k\": 2\x7d".data
    (by decide)

/-- C3: the code bug witnessed at a concrete input: a JSON array in the
model output is returned as is, so the function does return non-mapping
values, contradicting its documented dict-only contract. -/
theorem c3_nonmapping_result :
    _extract_json_from_text "[1, 2]" = JsonVal.arr [JsonVal.num "1", JsonVal.num "2"] ∧
    (_extract_json_from_text "[1, 2]").isObj = false :=
  ⟨rfl, rfl⟩

/-- C10: on parse failure the raw field is the selected candidate, not the
original input: for prose followed by an unclosed brace the raw value is
the strict suffix of the input starting at the brace. -/
theorem c10_raw_is_candidate :
    _extract_json_from_text "some prose \x7boops" = errObj "\x7boops" ∧
    "\x7boops".data = "some prose \x7boops".data.drop 11 ∧
    "\x7boops" ≠ "some prose \x7boops" :=
  ⟨rfl, rfl, by decide⟩

/-- C4 counterexample: with no type keyword and source keywords listed as
b then a over the lines a and b, the code takes the hit a from the first line,
while the claim first-keyword-in-list-order rule over the window picks b. -/
theorem c4_counterexample :
    detect_type_and_source "a\nb" [] ["b", "a"] ≠ claimDetect "a\nb" [] ["b", "a"] := by
  decide

/-- C4 amended: the type is the first keyword in list order occurring in
the joined two-line window; the source scan walks the window lines in
order, taking within each line the first keyword in list order, and the
first line with a non-empty hit decides; the window shifts only when a
non-empty type was found.  The concrete decision example of the spec
evaluates accordingly. -/
theorem c4_detector_amended :
    (∀ (text : String) (tks sks : List String),
      detect_type_and_source text tks sks = amendedDetect text tks sks) ∧
    detect_type_and_source "قرار رقم 1\nصادر عن بلدية بيروت" ["قرار"] ["بلدية"] =
      (some "قرار", some "بلدية") := by
  refine ⟨?_, rfl⟩
  intro text tks sks
  unfold detect_type_and_source amendedDetect
  dsimp only
  rw [findSome_eq_amendedScan]
  cases hty : tks.find? (fun t => isSubstrStr t (joinSpace ((clean_lines text).take 2))) with
  | none => rfl
  | some t =>
    by_cases ht : t = ""
    · simp [ht]
    · simp [ht]

/-- C5 counterexample: with an empty first fragment the final strip of the code
removes the leading join space, so the output differs from the claimed
plain join of stripped contents. -/
theorem c5_counterexample :
    combine_article_texts [("1_x.txt", ""), ("2_b.txt", "x"), ("10_a.txt", "y")] ≠
      claimCombine [("1_x.txt", ""), ("2_b.txt", "x"), ("10_a.txt", "y")] := by
  decide

/-- C5 amended: the assembler output is the claimed join of stripped
contents, additionally stripped as a whole; numbered files are joined in
ascending numeric order of their prefixes, as the three-file instance with
arbitrary contents shows, and with no matching file the output is empty. -/
theorem c5_assembler_amended :
    (∀ dir : List (String × String), combine_article_texts dir = pyStripStr (claimCombine dir)) ∧
    (∀ a1 a2 a10 : String,
      combine_article_texts [("2_b.txt", a2), ("10_a.txt", a10), ("1_x.txt", a1)] =
        pyStripStr (joinSpace [pyStripStr a1, pyStripStr a2, pyStripStr a10])) ∧
    (∀ dir : List (String × String),
      combine_article_texts (dir.filter (fun p => ! matchesNumTxt p.1)) = "") := by
  refine ⟨?_, ?_, ?_⟩
  · intro dir
    unfold combine_article_texts claimCombine
    dsimp only
    split
    · next hemp =>
      rw [List.isEmpty_iff] at hemp
      rw [hemp]
      rfl
    · rfl
  · intro a1 a2 a10
    rfl
  · intro dir
    have hnil : (dir.filter (fun p => ! matchesNumTxt p.1)).filter (fun p => matchesNumTxt p.1)
        = [] := by
      rw [List.filter_eq_nil_iff]
      intro a ha
      rcases List.mem_filter.mp ha with ⟨_, hm⟩
      simp only [Bool.not_eq_eq_eq_not, Bool.not_true] at hm
      simp [hm]
    unfold combine_article_texts
    rw [hnil]
    rfl

/-- C6 counterexample: a chunk whose truthy delta text is the number 5 is
appended by the code and makes the final join raise, so no string is
returned, while the claim asserts the concatenation of the (absent)
non-empty delta texts. -/
theorem c6_counterexample :
    _invoke_streaming [some "\x7b\"delta\": \x7b\"text\": 5\x7d\x7d"] ≠
      claimStreamResult [some "\x7b\"delta\": \x7b\"text\": 5\x7d\x7d"] := by
  decide

/-- C6 amended: for every event sequence in which each truthy delta text of
a JSON-parsing chunk is a string, the returned string is exactly the
concatenation, in emission order, of the non-empty delta texts of the
JSON-parsing chunk events; other events contribute nothing. -/
theorem c6_streaming_amended :
    ∀ events : List (Option String), (∀ ev ∈ events, stringly ev = true) →
      _invoke_streaming events = claimStreamResult events := by
  intro events h
  unfold _invoke_streaming claimStreamResult
  dsimp only
  rw [streamFold_eq_filterMap events [], List.nil_append, filterMap_str_of_stringly events h,
    joinAll_map_str]

/-- C6 witness: the amended theorem applied to a concrete stream holding
two text deltas, one malformed chunk, one chunk-free event and one chunk
without delta text. -/
theorem c6_witness :
    _invoke_streaming [some "\x7b\"delta\": \x7b\"text\": \"Hel\"\x7d\x7d", some "not json", none,
        some "\x7b\"x\": 1\x7d", some "\x7b\"delta\": \x7b\"text\": \"lo\"\x7d\x7d"] =
      claimStreamResult [some "\x7b\"delta\": \x7b\"text\": \"Hel\"\x7d\x7d", some "not json", none,
        some "\x7b\"x\": 1\x7d", some "\x7b\"delta\": \x7b\"text\": \"lo\"\x7d\x7d"] :=
  c6_streaming_amended _ (by decide)

/-- C7 counterexample: for the unsupported input with surrounding spaces
the subtype field of the returned object holds the stripped value, not the
input value the claim promises. -/
theorem c7_counterexample :
    extract_attributes_streaming_kararat " x " "" none (fun _ => none) =
      some (JsonVal.obj [("error", JsonVal.str "Unsupported subtype"),
        ("subtype", JsonVal.str "x")]) ∧
    (some (JsonVal.obj [("error", JsonVal.str "Unsupported subtype"),
        ("subtype", JsonVal.str "x")]) : Option JsonVal) ≠
      some (JsonVal.obj [("error", JsonVal.str "Unsupported subtype"),
        ("subtype", JsonVal.str " x ")]) := by
  refine ⟨rfl, ?_⟩
  intro hcontra
  simp only [Option.some.injEq, JsonVal.obj.injEq, List.cons.injEq, Prod.mk.injEq,
    JsonVal.str.injEq] at hcontra
  exact absurd hcontra.2.1.2 (by decide)

/-- C7 amended: whenever the stripped subtype differs from the supported
decision label, the extractor returns the unsupported-subtype object
carrying the stripped subtype, for every schema oracle and every stream
oracle: the schema file is not read and no call is made. -/
theorem c7_unsupported_subtype_amended :
    ∀ (subtype ocr : String) (schemaRead : Option String) (stream : String → Option String),
      pyStripStr subtype ≠ "قرار" →
      extract_attributes_streaming_kararat subtype ocr schemaRead stream =
        some (JsonVal.obj [("error", JsonVal.str "Unsupported subtype"),
          ("subtype", JsonVal.str (pyStripStr subtype))]) := by
  intro subtype ocr schemaRead stream h
  unfold extract_attributes_streaming_kararat
  dsimp only
  have hst : pyStripStr (if subtype = "" then "" else subtype) = pyStripStr subtype := by
    split
    · next heq => rw [heq]
    · rfl
  rw [hst, if_neg h]

/-- C7 witness: the amended theorem applied at a concrete unsupported
subtype with concrete oracles. -/
theorem c7_witness :
    extract_attributes_streaming_kararat "بيان" "text" (some "schema") (fun _ => some "out") =
      some (JsonVal.obj [("error", JsonVal.str "Unsupported subtype"),
        ("subtype", JsonVal.str (pyStripStr "بيان"))]) :=
  c7_unsupported_subtype_amended "بيان" "text" (some "schema") (fun _ => some "out") (by decide)

/-- C8: the classifier never raises in the embedding, and degrades to the
unknown label on a failed transport, an unparsable body, or a body whose
content text cannot be extracted; otherwise it returns the trimmed text,
falling back to unknown when the trimmed text is empty. -/
theorem c8_classifier_fallback :
    detect_subtype_with_claude none = "unknown" ∧
    (∀ raw : String, json_loads raw = none → detect_subtype_with_claude (some raw) = "unknown") ∧
    (∀ (raw : String) (body : JsonVal), json_loads raw = some body → bodyText body = none →
      detect_subtype_with_claude (some raw) = "unknown") ∧
    (∀ (raw : String) (body : JsonVal) (s : String), json_loads raw = some body →
      bodyText body = some s →
      detect_subtype_with_claude (some raw) =
        if pyStripStr s = "" then "unknown" else pyStripStr s) := by
  refine ⟨rfl, ?_, ?_, ?_⟩
  · intro raw h
    unfold detect_subtype_with_claude
    dsimp only
    rw [h]
  · intro raw body h1 h2
    unfold detect_subtype_with_claude
    dsimp only
    rw [h1]
    dsimp only
    rw [h2]
  · intro raw body s h1 h2
    unfold detect_subtype_with_claude
    dsimp only
    rw [h1]
    dsimp only
    rw [h2]

/-- C8 witness: the classifier theorem applied at a concrete response body
carrying a decision label surrounded by spaces. -/
theorem c8_witness :
    detect_subtype_with_claude (some "\x7b\"content\": [\x7b\"text\": \" قرار \"\x7d]\x7d") =
      if pyStripStr " قرار " = "" then "unknown" else pyStripStr " قرار " :=
  c8_classifier_fallback.2.2.2 "\x7b\"content\": [\x7b\"text\": \" قرار \"\x7d]\x7d"
    (JsonVal.obj [("content", JsonVal.arr [JsonVal.obj [("text", JsonVal.str " قرار ")]])])
    " قرار " (by rfl) (by rfl)

/-! Section: Scan lemmas

The leftmost-scan primitive is characterised by the three lemmas below:
a found index satisfies the predicate and is minimal, an exhausted scan
refutes the predicate on the scanned range, and a satisfied predicate
inside the range guarantees a find. -/

lemma scanFirst_eq_some (p : Nat → Bool) :
    ∀ (fuel i j : Nat), scanFirst p i fuel = some j →
      p j = true ∧ i ≤ j ∧ j < i + fuel ∧ ∀ k, i ≤ k → k < j → p k = false := by
  intro fuel
  induction fuel with
  | zero => intro i j h; simp [scanFirst] at h
  | succ fuel ih =>
    intro i j h
    unfold scanFirst at h
    by_cases hp : p i = true
    · rw [if_pos hp] at h
      cases h
      exact ⟨hp, Nat.le_refl i, by omega, fun k hk1 hk2 => absurd hk1 (by omega)⟩
    · rw [if_neg hp] at h
      obtain ⟨hj, hij, hlt, hmin⟩ := ih (i + 1) j h
      have hpf : p i = false := by simpa using hp
      refine ⟨hj, by omega, by omega, ?_⟩
      intro k hk1 hk2
      rcases Nat.eq_or_lt_of_le hk1 with heq | hlt2
      · rw [← heq]; exact hpf
      · exact hmin k hlt2 hk2

lemma scanFirst_eq_none (p : Nat → Bool) :
    ∀ (fuel i : Nat), scanFirst p i fuel = none →
      ∀ k, i ≤ k → k < i + fuel → p k = false := by
  intro fuel
  induction fuel with
  | zero => intro i _ k hk1 hk2; omega
  | succ fuel ih =>
    intro i h k hk1 hk2
    unfold scanFirst at h
    by_cases hp : p i = true
    · rw [if_pos hp] at h; cases h
    · rw [if_neg hp] at h
      have hpf : p i = false := by simpa using hp
      rcases Nat.eq_or_lt_of_le hk1 with heq | hlt2
      · rw [← heq]; exact hpf
      · exact ih (i + 1) h k hlt2 (by omega)

lemma scanFirst_isSome_of (p : Nat → Bool) :
    ∀ (fuel i j : Nat), i ≤ j → j < i + fuel → p j = true →
      (scanFirst p i fuel).isSome = true := by
  intro fuel
  induction fuel with
  | zero => intro i j h1 h2; omega
  | succ fuel ih =>
    intro i j h1 h2 hp
    unfold scanFirst
    by_cases hpi : p i = true
    · rw [if_pos hpi]; rfl
    · rw [if_neg hpi]
      have hne : i ≠ j := by
        intro he; subst he; exact hpi hp
      exact ih (i + 1) j (by omega) (by omega) hp

/-! Section: Character and pattern lemmas -/

lemma charAt_lt_length (t : List Char) (i : Nat) (c : Char) (h : charAt t i = some c) :
    i < t.length := by
  by_contra hge
  rw [charAt, List.getElem?_eq_none (by omega)] at h
  cases h

lemma charAt_zero_cons (c0 : Char) (rest : List Char) : charAt (c0 :: rest) 0 = some c0 :=
  List.getElem?_cons_zero

lemma charAt_head (t : List Char) (c : Char) (h : charAt t 0 = some c) :
    ∃ rest, t = c :: rest := by
  cases t with
  | nil => cases h
  | cons c0 rest =>
    rw [charAt_zero_cons] at h
    cases h
    exact ⟨rest, rfl⟩

lemma charAt_drop (t : List Char) (a x : Nat) : charAt (t.drop a) x = charAt t (a + x) := by
  unfold charAt
  exact List.getElem?_drop t a x

lemma slice_charAt (t : List Char) (a b y : Nat) (hy : y < b) :
    charAt ((t.drop a).take b) y = charAt t (a + y) := by
  unfold charAt
  rw [List.getElem?_take_of_lt hy]
  exact List.getElem?_drop t a y

lemma slice_length (t : List Char) (a b : Nat) (hab : a + b ≤ t.length) :
    ((t.drop a).take b).length = b := by
  rw [List.length_take, List.length_drop]
  omega

lemma litAt_le_length (pat t : List Char) :
    ∀ i, pat ≠ [] → litAt pat t i = true → i + pat.length ≤ t.length := by
  induction pat with
  | nil => intro i hne _; exact absurd rfl hne
  | cons c cs ih =>
    intro i _ h
    unfold litAt at h
    rw [Bool.and_eq_true] at h
    obtain ⟨h1, h2⟩ := h
    rw [beq_iff_eq] at h1
    have hilt := charAt_lt_length t i c h1
    by_cases hcs : cs = []
    · subst hcs; simp only [List.length_cons, List.length_nil]; omega
    · have := ih (i + 1) hcs h2
      simp only [List.length_cons]
      omega

lemma litAt_head (c0 : Char) (cs t : List Char) (i : Nat) (h : litAt (c0 :: cs) t i = true) :
    charAt t i = some c0 := by
  unfold litAt at h
  rw [Bool.and_eq_true] at h
  obtain ⟨h1, _⟩ := h
  rwa [beq_iff_eq] at h1

lemma litAt_transfer (t c : List Char) (a : Nat)
    (hchar : ∀ y, y < c.length → charAt c y = charAt t (a + y)) :
    ∀ (pat : List Char) (i : Nat), i + pat.length ≤ c.length → litAt pat c i = true →
      litAt pat t (a + i) = true := by
  intro pat
  induction pat with
  | nil => intro i _ _; rfl
  | cons c0 cs ih =>
    intro i hbound h
    unfold litAt at h ⊢
    rw [Bool.and_eq_true] at h
    obtain ⟨h1, h2⟩ := h
    rw [beq_iff_eq] at h1
    have hilt : i < c.length := by
      simp only [List.length_cons] at hbound; omega
    rw [Bool.and_eq_true, beq_iff_eq]
    constructor
    · rw [← hchar i hilt]; exact h1
    · have := ih (i + 1) (by simp only [List.length_cons] at hbound; omega) h2
      have harith : a + i + 1 = a + (i + 1) := by omega
      rwa [harith]

/-! Section: Whitespace-run lemmas -/

lemma wsCount_lt (l : List Char) :
    ∀ k, k < wsCount l → ∃ ch, l[k]? = some ch ∧ isPySpace ch = true := by
  induction l with
  | nil => intro k hk; simp [wsCount] at hk
  | cons c rest ih =>
    intro k hk
    unfold wsCount at hk
    by_cases hc : isPySpace c = true
    · rw [if_pos hc] at hk
      cases k with
      | zero => exact ⟨c, List.getElem?_cons_zero, hc⟩
      | succ k2 =>
        obtain ⟨ch, hch, hsp⟩ := ih k2 (by omega)
        exact ⟨ch, by simpa using hch, hsp⟩
    · rw [if_neg hc] at hk; omega

lemma wsCount_eq_of (w : Nat) :
    ∀ l : List Char, (∀ k, k < w → ∃ ch, l[k]? = some ch ∧ isPySpace ch = true) →
      (∃ ch, l[w]? = some ch ∧ isPySpace ch = false) → wsCount l = w := by
  induction w with
  | zero =>
    intro l _ hend
    obtain ⟨ch, hch, hsp⟩ := hend
    cases l with
    | nil => cases hch
    | cons c rest =>
      rw [List.getElem?_cons_zero] at hch
      cases hch
      unfold wsCount
      rw [if_neg (by rw [hsp]; simp)]
  | succ w2 ih =>
    intro l hlt hend
    cases l with
    | nil =>
      obtain ⟨ch, hch, _⟩ := hend
      cases hch
    | cons c rest =>
      obtain ⟨ch, hch, hsp⟩ := hlt 0 (by omega)
      rw [List.getElem?_cons_zero] at hch
      cases hch
      unfold wsCount
      rw [if_pos hsp]
      have hrest := ih rest
        (fun k hk => by
          obtain ⟨ch2, hch2, hsp2⟩ := hlt (k + 1) (by omega)
          exact ⟨ch2, by simpa using hch2, hsp2⟩)
        (by
          obtain ⟨ch2, hch2, hsp2⟩ := hend
          exact ⟨ch2, by simpa using hch2, hsp2⟩)
      omega

lemma wsRun_lt (t : List Char) (i : Nat) :
    ∀ k, k < wsRun t i → ∃ ch, charAt t (i + k) = some ch ∧ isPySpace ch = true := by
  intro k hk
  obtain ⟨ch, hch, hsp⟩ := wsCount_lt (t.drop i) k hk
  refine ⟨ch, ?_, hsp⟩
  rw [← charAt_drop]
  exact hch

lemma wsRun_eq_of (t : List Char) (i w : Nat)
    (hlt : ∀ k, k < w → ∃ ch, charAt t (i + k) = some ch ∧ isPySpace ch = true)
    (hend : ∃ ch, charAt t (i + w) = some ch ∧ isPySpace ch = false) :
    wsRun t i = w := by
  unfold wsRun
  apply wsCount_eq_of
  · intro k hk
    obtain ⟨ch, hch, hsp⟩ := hlt k hk
    exact ⟨ch, by rw [← charAt_drop] at hch; exact hch, hsp⟩
  · obtain ⟨ch, hch, hsp⟩ := hend
    exact ⟨ch, by rw [← charAt_drop] at hch; exact hch, hsp⟩

lemma wsRun_transfer (t c : List Char) (a x : Nat)
    (hchar : ∀ y, y < c.length → charAt c y = charAt t (a + y))
    (hend : ∃ ch, charAt c (x + wsRun c x) = some ch ∧ isPySpace ch = false) :
    wsRun t (a + x) = wsRun c x := by
  apply wsRun_eq_of
  · intro k hk
    obtain ⟨ch, hch, hsp⟩ := wsRun_lt c x k hk
    have hlt : x + k < c.length := charAt_lt_length c (x + k) ch hch
    refine ⟨ch, ?_, hsp⟩
    have harith : a + x + k = a + (x + k) := by omega
    rw [harith, ← hchar (x + k) hlt]
    exact hch
  · obtain ⟨ch, hch, hsp⟩ := hend
    have hlt : x + wsRun c x < c.length := charAt_lt_length c _ ch hch
    refine ⟨ch, ?_, hsp⟩
    have harith : a + x + wsRun c x = a + (x + wsRun c x) := by omega
    rw [harith, ← hchar _ hlt]
    exact hch

/-! Section: Strip lemmas -/

lemma dropWhile_dropWhile (p : Char → Bool) (l : List Char) :
    (l.dropWhile p).dropWhile p = l.dropWhile p := by
  induction l with
  | nil => rfl
  | cons c rest ih =>
    by_cases hc : p c = true
    · rw [List.dropWhile_cons_of_pos hc]
      exact ih
    · rw [List.dropWhile_cons_of_neg (by simpa using hc),
        List.dropWhile_cons_of_neg (by simpa using hc)]

lemma length_dropWhile_le (p : Char → Bool) (l : List Char) :
    (l.dropWhile p).length ≤ l.length := by
  induction l with
  | nil => exact Nat.le_refl 0
  | cons c rest ih =>
    by_cases hc : p c = true
    · rw [List.dropWhile_cons_of_pos hc]
      simp only [List.length_cons]
      omega
    · rw [List.dropWhile_cons_of_neg (by simpa using hc)]

lemma dropWhile_eq_self_of_length (p : Char → Bool) (l : List Char)
    (h : (l.dropWhile p).length = l.length) : l.dropWhile p = l := by
  induction l with
  | nil => rfl
  | cons c rest _ =>
    by_cases hc : p c = true
    · rw [List.dropWhile_cons_of_pos hc] at h ⊢
      have := length_dropWhile_le p rest
      simp only [List.length_cons] at h
      omega
    · rw [List.dropWhile_cons_of_neg (by simpa using hc)]

lemma dropWhile_head_false (p : Char → Bool) (l : List Char) (c : Char) (rest : List Char)
    (h : l.dropWhile p = c :: rest) : p c = false := by
  have := List.head?_dropWhile_not p l
  rw [h] at this
  simpa using this

lemma pyStrip_idem (l : List Char) : pyStrip (pyStrip l) = pyStrip l := by
  unfold pyStrip
  set A := l.dropWhile isPySpace with hA
  set B := A.reverse.dropWhile isPySpace with hB
  have hBB : B.dropWhile isPySpace = B := by
    rw [hB]; exact dropWhile_dropWhile isPySpace A.reverse
  have hBrev : B.reverse.dropWhile isPySpace = B.reverse := by
    cases hBr : B.reverse with
    | nil => rfl
    | cons b0 br =>
      apply List.dropWhile_cons_of_neg
      have hpre : B.reverse <+: A := by
        have hsuf : B <:+ A.reverse := by rw [hB]; exact List.dropWhile_suffix isPySpace
        have := List.reverse_prefix.mpr hsuf
        rwa [List.reverse_reverse] at this
      cases hAc : A with
      | nil =>
        rw [hAc] at hpre
        rw [hBr] at hpre
        have := List.IsPrefix.length_le hpre
        simp at this
      | cons a0 ar =>
        have ha0 : isPySpace a0 = false := by
          have : A.dropWhile isPySpace = A := by
            rw [hA]; exact dropWhile_dropWhile isPySpace l
          rw [hAc] at this
          exact dropWhile_head_false isPySpace A a0 ar (by rw [← hAc] at this ⊢; exact this)
        obtain ⟨tl, htl⟩ := hpre
        rw [hBr, hAc] at htl
        simp only [List.cons_append] at htl
        have hb0 : b0 = a0 := (List.cons.injEq _ _ _ _ ▸ htl).1
        rw [hb0, ha0]
        simp
  rw [hBrev, List.reverse_reverse, hBB]

lemma pyStrip_no_op (l : List Char)
    (h1 : ∃ c, charAt l 0 = some c ∧ isPySpace c = false)
    (h2 : ∃ c, charAt l (l.length - 1) = some c ∧ isPySpace c = false) :
    pyStrip l = l := by
  obtain ⟨c0, hc0, hs0⟩ := h1
  obtain ⟨c1, hc1, hs1⟩ := h2
  obtain ⟨rest, hrest⟩ := charAt_head l c0 hc0
  have hlen : 0 < l.length := charAt_lt_length l 0 c0 hc0
  have hd1 : l.dropWhile isPySpace = l := by
    rw [hrest]
    exact List.dropWhile_cons_of_neg (by rw [hs0]; simp)
  have hrev : charAt l.reverse 0 = some c1 := by
    unfold charAt at hc1 ⊢
    rw [List.getElem?_reverse (by omega)]
    simpa using hc1
  obtain ⟨rrest, hrrest⟩ := charAt_head l.reverse c1 hrev
  have hd2 : l.reverse.dropWhile isPySpace = l.reverse := by
    rw [hrrest]
    exact List.dropWhile_cons_of_neg (by rw [hs1]; simp)
  unfold pyStrip
  rw [hd1, hd2, List.reverse_reverse]

lemma stripped_ends (l : List Char) (h : pyStrip l = l) (hne : l ≠ []) :
    (∃ c, charAt l 0 = some c ∧ isPySpace c = false) ∧
    (∃ c, charAt l (l.length - 1) = some c ∧ isPySpace c = false) := by
  have hlenA : (l.dropWhile isPySpace).length = l.length := by
    have h1 := length_dropWhile_le isPySpace l
    have h2 := length_dropWhile_le isPySpace (l.dropWhile isPySpace).reverse
    have h3 : ((l.dropWhile isPySpace).reverse.dropWhile isPySpace).reverse.length = l.length := by
      show (pyStrip l).length = l.length
      rw [h]
    rw [List.length_reverse] at h3
    rw [List.length_reverse] at h2
    omega
  have hA : l.dropWhile isPySpace = l := dropWhile_eq_self_of_length isPySpace l hlenA
  have hrev : l.reverse.dropWhile isPySpace = l.reverse := by
    have : ((l.dropWhile isPySpace).reverse.dropWhile isPySpace).reverse = l := h
    rw [hA] at this
    rw [← List.reverse_inj, List.reverse_reverse] at this
    exact this
  constructor
  · cases hl : l with
    | nil => exact absurd hl hne
    | cons c0 rest =>
      refine ⟨c0, by rw [hl] at *; exact charAt_zero_cons c0 rest, ?_⟩
      rw [hl] at hA
      exact dropWhile_head_false isPySpace (c0 :: rest) c0 rest hA
  · cases hlr : l.reverse with
    | nil =>
      rw [← List.reverse_reverse l, hlr] at hne
      exact absurd rfl hne
    | cons c1 rrest =>
      refine ⟨c1, ?_, ?_⟩
      · have hlen : 0 < l.length := by
          cases hl2 : l with
          | nil => rw [hl2] at hne; exact absurd rfl hne
          | cons a b => simp
        unfold charAt
        rw [show l.length - 1 = l.length - 1 - 0 by omega, ← List.getElem?_reverse (by omega), hlr]
        exact List.getElem?_cons_zero
      · rw [hlr] at hrev
        exact dropWhile_head_false isPySpace (c1 :: rrest) c1 rrest hrev

lemma preprocess_stripped (s : List Char) : pyStrip (preprocess s) = preprocess s := by
  unfold preprocess
  dsimp only
  split
  · exact pyStrip_idem _
  · exact pyStrip_idem s

/-! Section: Fenced-search lemmas -/

lemma closePred_iff (t : List Char) (j : Nat) :
    closePred t j = true ↔
      charAt t j = some rbrace ∧ litAt fence3 t (j + 1 + wsRun t (j + 1)) = true := by
  unfold closePred followFence
  rw [Bool.and_eq_true, beq_iff_eq]

lemma isPySpace_backtick : isPySpace backtick = false := by decide

lemma isPySpace_lbrace : isPySpace lbrace = false := by decide

lemma isPySpace_rbrace : isPySpace rbrace = false := by decide

lemma fence3_ne_nil : fence3 ≠ [] := by decide

lemma closePred_transfer (t c : List Char) (a : Nat)
    (hchar : ∀ y, y < c.length → charAt c y = charAt t (a + y))
    (j : Nat) (hc : closePred c j = true) : closePred t (a + j) = true := by
  rw [closePred_iff] at hc ⊢
  obtain ⟨hr, hlit⟩ := hc
  have hjlt : j < c.length := charAt_lt_length c j rbrace hr
  have hbt : charAt c (j + 1 + wsRun c (j + 1)) = some backtick :=
    litAt_head backtick [backtick, backtick] c _ hlit
  have hw : wsRun t (a + (j + 1)) = wsRun c (j + 1) :=
    wsRun_transfer t c a (j + 1) hchar ⟨backtick, hbt, isPySpace_backtick⟩
  have hbound : (j + 1 + wsRun c (j + 1)) + fence3.length ≤ c.length := by
    have := litAt_le_length fence3 c (j + 1 + wsRun c (j + 1)) fence3_ne_nil hlit
    omega
  constructor
  · rw [← hchar j hjlt]; exact hr
  · have hlt := litAt_transfer t c a hchar fence3 (j + 1 + wsRun c (j + 1)) hbound hlit
    have harith : a + j + 1 + wsRun t (a + j + 1) = a + (j + 1 + wsRun c (j + 1)) := by
      have h2 : a + j + 1 = a + (j + 1) := by omega
      rw [h2, hw]
      omega
    rwa [harith]

lemma matchFencedAt_eq_some (tag t g : List Char) (i : Nat)
    (h : matchFencedAt tag t i = some g) :
    litAt tag t i = true ∧
    ∃ j, charAt t (i + tag.length + wsRun t (i + tag.length)) = some lbrace ∧
      i + tag.length + wsRun t (i + tag.length) + 1 ≤ j ∧ j < t.length ∧
      closePred t j = true ∧
      (∀ k, i + tag.length + wsRun t (i + tag.length) + 1 ≤ k → k < j →
        closePred t k = false) ∧
      g = (t.drop (i + tag.length + wsRun t (i + tag.length))).take
        (j + 1 - (i + tag.length + wsRun t (i + tag.length))) := by
  unfold matchFencedAt at h
  by_cases hlit : litAt tag t i = true
  · rw [if_pos hlit] at h
    dsimp only at h
    set q := i + tag.length + wsRun t (i + tag.length) with hq
    by_cases hbr : (charAt t q == some lbrace) = true
    · rw [if_pos hbr] at h
      rw [beq_iff_eq] at hbr
      cases hscan : scanFirst (closePred t) (q + 1) (t.length - (q + 1)) with
      | none => rw [hscan] at h; cases h
      | some j =>
        rw [hscan] at h
        obtain ⟨hcp, hge, _, hmin⟩ := scanFirst_eq_some (closePred t) _ _ _ hscan
        have hjlt : j < t.length := by
          rw [closePred_iff] at hcp
          exact charAt_lt_length t j rbrace hcp.1
        cases h
        exact ⟨hlit, j, hbr, hge, hjlt, hcp, fun k hk1 hk2 => hmin k hk1 hk2, rfl⟩
    · rw [if_neg hbr] at h; cases h
  · rw [if_neg hlit] at h; cases h

lemma matchFencedAt_isSome_of (tag t : List Char) (i j : Nat)
    (hlit : litAt tag t i = true)
    (hbr : charAt t (i + tag.length + wsRun t (i + tag.length)) = some lbrace)
    (hcp : closePred t j = true)
    (hge : i + tag.length + wsRun t (i + tag.length) + 1 ≤ j) :
    (matchFencedAt tag t i).isSome = true := by
  unfold matchFencedAt
  rw [if_pos hlit]
  dsimp only
  set q := i + tag.length + wsRun t (i + tag.length) with hq
  rw [if_pos (by rw [beq_iff_eq]; exact hbr)]
  have hjlt : j < t.length := by
    rw [closePred_iff] at hcp
    exact charAt_lt_length t j rbrace hcp.1
  have hscan := scanFirst_isSome_of (closePred t) (t.length - (q + 1)) (q + 1) j hge
    (by omega) hcp
  cases hs : scanFirst (closePred t) (q + 1) (t.length - (q + 1)) with
  | none => rw [hs] at hscan; cases hscan
  | some j2 => rfl

lemma searchFenced_eq_some (tag t g : List Char) (h : searchFenced tag t = some g) :
    ∃ i, matchFencedAt tag t i = some g := by
  unfold searchFenced at h
  cases hscan : scanFirst (fun i => (matchFencedAt tag t i).isSome) 0 t.length with
  | none => rw [hscan] at h; cases h
  | some i => rw [hscan] at h; exact ⟨i, h⟩

lemma searchFenced_ne_none (tag t : List Char) (i : Nat) (hi : i < t.length)
    (hm : (matchFencedAt tag t i).isSome = true) : searchFenced tag t ≠ none := by
  unfold searchFenced
  cases hscan : scanFirst (fun i => (matchFencedAt tag t i).isSome) 0 t.length with
  | none =>
    have := scanFirst_eq_none _ _ _ hscan i (by omega) (by omega)
    rw [hm] at this
    cases this
  | some i2 =>
    obtain ⟨hp, _, _, _⟩ := scanFirst_eq_some _ _ _ _ hscan
    intro hcontra
    dsimp only at hcontra
    rw [Option.isSome_iff_exists] at hp
    obtain ⟨g, hg⟩ := hp
    rw [hg] at hcontra
    cases hcontra

/-! Section: No fenced match inside a selected span -/

lemma searchFenced_close_facts (tag c g : List Char) (h : searchFenced tag c = some g) :
    ∃ j2, closePred c j2 = true ∧ 1 ≤ j2 ∧
      j2 + 4 + wsRun c (j2 + 1) ≤ c.length := by
  obtain ⟨i, hm⟩ := searchFenced_eq_some tag c g h
  obtain ⟨_, j2, _, hge, _, hcp, _, _⟩ := matchFencedAt_eq_some tag c g i hm
  refine ⟨j2, hcp, by omega, ?_⟩
  rw [closePred_iff] at hcp
  have := litAt_le_length fence3 c (j2 + 1 + wsRun c (j2 + 1)) fence3_ne_nil hcp.2
  have hf3 : fence3.length = 3 := rfl
  omega

lemma no_fenced_inner (tag t c : List Char) (a j : Nat)
    (hchar : ∀ y, y < c.length → charAt c y = charAt t (a + y))
    (hclen : a + c.length = j + 1)
    (hmin : ∀ k, a + 1 ≤ k → k < j → closePred t k = false) :
    searchFenced tag c = none := by
  cases hs : searchFenced tag c with
  | none => rfl
  | some g =>
    exfalso
    obtain ⟨j2, hcp, hj2ge, hj2len⟩ := searchFenced_close_facts tag c g hs
    have hcpt : closePred t (a + j2) = true := closePred_transfer t c a hchar j2 hcp
    have hlt : a + j2 < j := by omega
    have := hmin (a + j2) (by omega) hlt
    rw [hcpt] at this
    cases this

lemma no_fenced_slice (tag t c : List Char) (a : Nat)
    (hchar : ∀ y, y < c.length → charAt c y = charAt t (a + y))
    (hlen : a + c.length ≤ t.length)
    (htagne : tag ≠ [])
    (hnone : searchFenced tag t = none) :
    searchFenced tag c = none := by
  cases hs : searchFenced tag c with
  | none => rfl
  | some g =>
    exfalso
    obtain ⟨i, hm⟩ := searchFenced_eq_some tag c g hs
    obtain ⟨hlit, j2, hbr, hge, _, hcp, _, _⟩ := matchFencedAt_eq_some tag c g i hm
    have hitag : i + tag.length ≤ c.length := litAt_le_length tag c i htagne hlit
    have hq : i + tag.length + wsRun c (i + tag.length) < c.length :=
      charAt_lt_length c _ lbrace hbr
    have hlitT : litAt tag t (a + i) = true := litAt_transfer t c a hchar tag i hitag hlit
    have hwT : wsRun t (a + (i + tag.length)) = wsRun c (i + tag.length) :=
      wsRun_transfer t c a (i + tag.length) hchar ⟨lbrace, hbr, isPySpace_lbrace⟩
    have hbrT : charAt t (a + (i + tag.length + wsRun c (i + tag.length))) = some lbrace := by
      rw [← hchar _ hq]
      exact hbr
    have hcpT : closePred t (a + j2) = true := closePred_transfer t c a hchar j2 hcp
    have hisome : (matchFencedAt tag t (a + i)).isSome = true := by
      apply matchFencedAt_isSome_of tag t (a + i) (a + j2)
      · exact hlitT
      · have harith : a + i + tag.length + wsRun t (a + i + tag.length)
            = a + (i + tag.length + wsRun c (i + tag.length)) := by
          have h2 : a + i + tag.length = a + (i + tag.length) := by omega
          rw [h2, hwT]
          omega
        rwa [harith]
      · exact hcpT
      · have harith : a + i + tag.length + wsRun t (a + i + tag.length)
            = a + (i + tag.length + wsRun c (i + tag.length)) := by
          have h2 : a + i + tag.length = a + (i + tag.length) := by omega
          rw [h2, hwT]
          omega
        rw [harith]
        omega
    have hai : a + i < t.length := by
      have : tag.length ≠ 0 := by
        intro hz
        exact htagne (List.eq_nil_of_length_eq_zero hz)
      omega
    exact searchFenced_ne_none tag t (a + i) hai hisome hnone

/-! Section: Greedy-search lemmas -/

lemma firstIdx_eq_some (c : Char) (t : List Char) (f : Nat) (h : firstIdx c t = some f) :
    charAt t f = some c ∧ ∀ k, k < f → charAt t k ≠ some c := by
  unfold firstIdx at h
  obtain ⟨hp, _, _, hmin⟩ := scanFirst_eq_some _ _ _ _ h
  rw [beq_iff_eq] at hp
  refine ⟨hp, ?_⟩
  intro k hk hcontra
  have := hmin k (by omega) hk
  rw [show (charAt t k == some c) = true from by rw [beq_iff_eq]; exact hcontra] at this
  cases this

lemma firstIdx_head (t : List Char) (ch : Char) (h : charAt t 0 = some ch) :
    firstIdx ch t = some 0 := by
  unfold firstIdx
  have hlen : 0 < t.length := charAt_lt_length t 0 ch h
  cases hl : t.length with
  | zero => omega
  | succ n =>
    unfold scanFirst
    rw [if_pos (by rw [beq_iff_eq]; exact h)]

lemma firstIdx_eq_none (c : Char) (t : List Char) (h : firstIdx c t = none) :
    ∀ k, charAt t k ≠ some c := by
  unfold firstIdx at h
  intro k hcontra
  have hklt : k < t.length := charAt_lt_length t k c hcontra
  have := scanFirst_eq_none _ _ _ h k (by omega) (by omega)
  rw [show (charAt t k == some c) = true from by rw [beq_iff_eq]; exact hcontra] at this
  cases this

lemma lastIdx_eq_some (c : Char) (t : List Char) (J : Nat) (h : lastIdx c t = some J) :
    charAt t J = some c ∧ ∀ x, J < x → charAt t x ≠ some c := by
  unfold lastIdx at h
  cases hscan : scanFirst (fun k => charAt t (t.length - 1 - k) == some c) 0 t.length with
  | none => rw [hscan] at h; cases h
  | some k =>
    rw [hscan] at h
    cases h
    obtain ⟨hp, _, hklt, hmin⟩ := scanFirst_eq_some _ _ _ _ hscan
    rw [beq_iff_eq] at hp
    refine ⟨hp, ?_⟩
    intro x hx hcontra
    have hxlt : x < t.length := charAt_lt_length t x c hcontra
    have hk2 : t.length - 1 - x < k := by omega
    have := hmin (t.length - 1 - x) (by omega) hk2
    have hxeq : t.length - 1 - (t.length - 1 - x) = x := by omega
    rw [hxeq] at this
    rw [show (charAt t x == some c) = true from by rw [beq_iff_eq]; exact hcontra] at this
    cases this

lemma lastIdx_eq_none (c : Char) (t : List Char) (h : lastIdx c t = none) :
    ∀ x, charAt t x ≠ some c := by
  unfold lastIdx at h
  cases hscan : scanFirst (fun k => charAt t (t.length - 1 - k) == some c) 0 t.length with
  | some k => rw [hscan] at h; cases h
  | none =>
    intro x hcontra
    have hxlt : x < t.length := charAt_lt_length t x c hcontra
    have := scanFirst_eq_none _ _ _ hscan (t.length - 1 - x) (by omega) (by omega)
    have hxeq : t.length - 1 - (t.length - 1 - x) = x := by omega
    rw [hxeq] at this
    rw [show (charAt t x == some c) = true from by rw [beq_iff_eq]; exact hcontra] at this
    cases this

lemma lastIdx_last (t : List Char) (ch : Char) (hne : 0 < t.length)
    (h : charAt t (t.length - 1) = some ch) : lastIdx ch t = some (t.length - 1) := by
  unfold lastIdx
  cases hl : t.length with
  | zero => omega
  | succ n =>
    unfold scanFirst
    rw [if_pos (by rw [beq_iff_eq, ← hl]; simpa using h)]
    simp [hl]

lemma searchGreedy_whole (c : List Char) (h0 : charAt c 0 = some lbrace)
    (hl : charAt c (c.length - 1) = some rbrace) (h2 : 2 ≤ c.length) :
    searchGreedy c = some c := by
  unfold searchGreedy
  rw [firstIdx_head c lbrace h0, lastIdx_last c rbrace (by omega) hl]
  dsimp only
  rw [if_pos (by omega : 0 < c.length - 1)]
  rw [List.drop_zero]
  have harith : c.length - 1 + 1 - 0 = c.length := by omega
  rw [harith, List.take_length]

lemma searchGreedy_none_no_rbrace (c : List Char) (h : ∀ x, charAt c x ≠ some rbrace) :
    searchGreedy c = none := by
  unfold searchGreedy
  have hli : lastIdx rbrace c = none := by
    cases hscan : lastIdx rbrace c with
    | none => rfl
    | some J =>
      obtain ⟨hp, _⟩ := lastIdx_eq_some rbrace c J hscan
      exact absurd hp (h J)
  rw [hli]
  cases firstIdx lbrace c with
  | none => rfl
  | some p => rfl

lemma searchGreedy_eq_some (t g : List Char) (h : searchGreedy t = some g) :
    ∃ p J, charAt t p = some lbrace ∧ charAt t J = some rbrace ∧ p < J ∧
      (∀ x, J < x → charAt t x ≠ some rbrace) ∧
      g = (t.drop p).take (J + 1 - p) := by
  unfold searchGreedy at h
  cases hf : firstIdx lbrace t with
  | none => rw [hf] at h; cases h
  | some p =>
    cases hl : lastIdx rbrace t with
    | none => rw [hf, hl] at h; cases h
    | some J =>
      rw [hf, hl] at h
      dsimp only at h
      by_cases hpJ : p < J
      · rw [if_pos hpJ] at h
        cases h
        obtain ⟨hp1, _⟩ := firstIdx_eq_some lbrace t p hf
        obtain ⟨hJ1, hJmax⟩ := lastIdx_eq_some rbrace t J hl
        exact ⟨p, J, hp1, hJ1, hpJ, hJmax, rfl⟩
      · rw [if_neg hpJ] at h
        cases h

/-! Section: Trim lemmas -/

lemma trimToBrace_of_head (c : List Char) (h : charAt c 0 = some lbrace) :
    trimToBrace c = c := by
  unfold trimToBrace
  rw [firstIdx_head c lbrace h]
  rfl

lemma trimToBrace_of_none (c : List Char) (h : firstIdx lbrace c = none) :
    trimToBrace c = c := by
  unfold trimToBrace
  rw [h]

lemma take3_ne_fence_of_head (c : List Char) (ch : Char) (h : charAt c 0 = some ch)
    (hne : ch ≠ backtick) : c.take 3 ≠ fence3 := by
  obtain ⟨rest, hrest⟩ := charAt_head c ch h
  rw [hrest]
  intro hcontra
  simp only [List.take_succ_cons, fence3] at hcontra
  have := (List.cons.injEq _ _ _ _ ▸ hcontra).1
  exact hne this

/-! Section: Fixed-point lemmas for the clean candidate -/

lemma preprocess_of_fixed (c : List Char) (hstrip : pyStrip c = c)
    (hfence : c.take 3 ≠ fence3) : preprocess c = c := by
  unfold preprocess
  dsimp only
  rw [hstrip, if_neg hfence]

lemma cleanCandidate_fix_point (c : List Char)
    (hstrip : pyStrip c = c)
    (hfence : c.take 3 ≠ fence3)
    (hfj : searchFenced fjTag c = none)
    (hfg : searchFenced fence3 c = none)
    (hgr : searchGreedy c = some c ∨ searchGreedy c = none)
    (htrim : trimToBrace c = c) :
    cleanCandidate c = c := by
  have hpre : preprocess c = c := preprocess_of_fixed c hstrip hfence
  unfold cleanCandidate
  dsimp only
  rw [hpre]
  have hsel : selectSpan c = searchGreedy c := by
    unfold selectSpan
    rw [hfj, hfg]
  rw [hsel]
  cases hgr with
  | inl hg => rw [hg, Option.getD_some, hstrip]; exact htrim
  | inr hg => rw [hg, Option.getD_none, hstrip]; exact htrim

lemma fenced_group_props (tag t g : List Char) (hsome : searchFenced tag t = some g) :
    pyStrip g = g ∧ trimToBrace g = g ∧ cleanCandidate g = g := by
  obtain ⟨i, hm⟩ := searchFenced_eq_some tag t g hsome
  obtain ⟨hlit, j, hbr, hge, hjlt, hcp, hmin, hg⟩ := matchFencedAt_eq_some tag t g i hm
  set q := i + tag.length + wsRun t (i + tag.length) with hq
  have hlen_g : g.length = j + 1 - q := by
    rw [hg]; exact slice_length t q (j + 1 - q) (by omega)
  have hglen2 : 2 ≤ g.length := by omega
  have hchar : ∀ y, y < g.length → charAt g y = charAt t (q + y) := by
    intro y hy
    rw [hg]
    exact slice_charAt t q (j + 1 - q) y (by omega)
  have hg0 : charAt g 0 = some lbrace := by
    rw [hchar 0 (by omega)]
    simpa using hbr
  have hglast : charAt g (g.length - 1) = some rbrace := by
    rw [hchar (g.length - 1) (by omega)]
    have harith : q + (g.length - 1) = j := by omega
    rw [harith]
    exact ((closePred_iff t j).mp hcp).1
  have hstrip_g : pyStrip g = g :=
    pyStrip_no_op g ⟨lbrace, hg0, isPySpace_lbrace⟩ ⟨rbrace, hglast, isPySpace_rbrace⟩
  have htrim_g := trimToBrace_of_head g hg0
  have hfence_g : g.take 3 ≠ fence3 := take3_ne_fence_of_head g lbrace hg0 (by decide)
  have hfj_g : searchFenced fjTag g = none :=
    no_fenced_inner fjTag t g q j hchar (by omega) (fun k hk1 hk2 => hmin k hk1 hk2)
  have hfg_g : searchFenced fence3 g = none :=
    no_fenced_inner fence3 t g q j hchar (by omega) (fun k hk1 hk2 => hmin k hk1 hk2)
  have hgr_g : searchGreedy g = some g := searchGreedy_whole g hg0 hglast hglen2
  exact ⟨hstrip_g, htrim_g,
    cleanCandidate_fix_point g hstrip_g hfence_g hfj_g hfg_g (Or.inl hgr_g) htrim_g⟩

lemma greedy_group_props (t g : List Char)
    (hfj : searchFenced fjTag t = none) (hfg : searchFenced fence3 t = none)
    (hsome : searchGreedy t = some g) :
    pyStrip g = g ∧ trimToBrace g = g ∧ cleanCandidate g = g := by
  obtain ⟨p, J, hp, hJ, hpJ, hJmax, hg⟩ := searchGreedy_eq_some t g hsome
  have hJlt : J < t.length := charAt_lt_length t J rbrace hJ
  have hlen_g : g.length = J + 1 - p := by
    rw [hg]; exact slice_length t p (J + 1 - p) (by omega)
  have hglen2 : 2 ≤ g.length := by omega
  have hchar : ∀ y, y < g.length → charAt g y = charAt t (p + y) := by
    intro y hy
    rw [hg]
    exact slice_charAt t p (J + 1 - p) y (by omega)
  have hg0 : charAt g 0 = some lbrace := by
    rw [hchar 0 (by omega)]
    simpa using hp
  have hglast : charAt g (g.length - 1) = some rbrace := by
    rw [hchar (g.length - 1) (by omega)]
    have harith : p + (g.length - 1) = J := by omega
    rw [harith]
    exact hJ
  have hstrip_g : pyStrip g = g :=
    pyStrip_no_op g ⟨lbrace, hg0, isPySpace_lbrace⟩ ⟨rbrace, hglast, isPySpace_rbrace⟩
  have htrim_g := trimToBrace_of_head g hg0
  have hfence_g : g.take 3 ≠ fence3 := take3_ne_fence_of_head g lbrace hg0 (by decide)
  have hfj_g : searchFenced fjTag g = none :=
    no_fenced_slice fjTag t g p hchar (by omega) (by decide) hfj
  have hfg_g : searchFenced fence3 g = none :=
    no_fenced_slice fence3 t g p hchar (by omega) (by decide) hfg
  have hgr_g : searchGreedy g = some g := searchGreedy_whole g hg0 hglast hglen2
  exact ⟨hstrip_g, htrim_g,
    cleanCandidate_fix_point g hstrip_g hfence_g hfj_g hfg_g (Or.inl hgr_g) htrim_g⟩

lemma cleanCandidate_fixed (s : List Char)
    (hfence : (cleanCandidate s).take 3 ≠ fence3) :
    cleanCandidate (cleanCandidate s) = cleanCandidate s := by
  have hts : pyStrip (preprocess s) = preprocess s := preprocess_stripped s
  cases hfj : searchFenced fjTag (preprocess s) with
  | some g =>
    obtain ⟨hstr, htr, hfix⟩ := fenced_group_props fjTag (preprocess s) g hfj
    have hcc : cleanCandidate s = g := by
      unfold cleanCandidate selectSpan
      dsimp only
      rw [hfj, Option.getD_some, hstr]
      exact htr
    rw [hcc]
    exact hfix
  | none =>
    cases hfg : searchFenced fence3 (preprocess s) with
    | some g =>
      obtain ⟨hstr, htr, hfix⟩ := fenced_group_props fence3 (preprocess s) g hfg
      have hcc : cleanCandidate s = g := by
        unfold cleanCandidate selectSpan
        dsimp only
        rw [hfj, hfg, Option.getD_some, hstr]
        exact htr
      rw [hcc]
      exact hfix
    | none =>
      cases hgr : searchGreedy (preprocess s) with
      | some g =>
        obtain ⟨hstr, htr, hfix⟩ := greedy_group_props (preprocess s) g hfj hfg hgr
        have hcc : cleanCandidate s = g := by
          unfold cleanCandidate selectSpan
          dsimp only
          rw [hfj, hfg, hgr, Option.getD_some, hstr]
          exact htr
        rw [hcc]
        exact hfix
      | none =>
        have hcc0 : cleanCandidate s = trimToBrace (preprocess s) := by
          unfold cleanCandidate selectSpan
          dsimp only
          rw [hfj, hfg, hgr, Option.getD_none, hts]
        cases hfi : firstIdx lbrace (preprocess s) with
        | none =>
          have htr : trimToBrace (preprocess s) = preprocess s := trimToBrace_of_none _ hfi
          have hcc : cleanCandidate s = preprocess s := by rw [hcc0, htr]
          rw [hcc] at hfence ⊢
          exact cleanCandidate_fix_point _ hts hfence hfj hfg (Or.inr hgr) htr
        | some f =>
          obtain ⟨hfc, hfmin⟩ := firstIdx_eq_some lbrace (preprocess s) f hfi
          by_cases hf0 : 0 < f
          · have hcc : cleanCandidate s = (preprocess s).drop f := by
              rw [hcc0]
              unfold trimToBrace
              rw [hfi]
              dsimp only
              rw [if_pos hf0]
            have hflt : f < (preprocess s).length := charAt_lt_length _ f lbrace hfc
            have hchar : ∀ y, y < ((preprocess s).drop f).length →
                charAt ((preprocess s).drop f) y = charAt (preprocess s) (f + y) :=
              fun y _ => charAt_drop (preprocess s) f y
            have hclen : ((preprocess s).drop f).length = (preprocess s).length - f :=
              List.length_drop f (preprocess s)
            have hc0 : charAt ((preprocess s).drop f) 0 = some lbrace := by
              rw [hchar 0 (by omega)]
              simpa using hfc
            have htne : preprocess s ≠ [] := by
              intro he
              rw [he] at hflt
              simp at hflt
            obtain ⟨_, cl, hcl, hcls⟩ := stripped_ends (preprocess s) hts htne
            have hclast : charAt ((preprocess s).drop f) (((preprocess s).drop f).length - 1)
                = some cl := by
              rw [hchar (((preprocess s).drop f).length - 1) (by omega)]
              have harith : f + (((preprocess s).drop f).length - 1) = (preprocess s).length - 1 := by
                omega
              rw [harith]
              exact hcl
            have hstrip_c : pyStrip ((preprocess s).drop f) = (preprocess s).drop f :=
              pyStrip_no_op _ ⟨lbrace, hc0, isPySpace_lbrace⟩ ⟨cl, hclast, hcls⟩
            have htrim_c := trimToBrace_of_head _ hc0
            have hnoR : ∀ x, f < x → charAt (preprocess s) x ≠ some rbrace := by
              unfold searchGreedy at hgr
              rw [hfi] at hgr
              cases hli : lastIdx rbrace (preprocess s) with
              | none =>
                intro x _
                exact lastIdx_eq_none rbrace (preprocess s) hli x
              | some J =>
                rw [hli] at hgr
                dsimp only at hgr
                by_cases hpj : f < J
                · rw [if_pos hpj] at hgr
                  cases hgr
                · obtain ⟨_, hmax⟩ := lastIdx_eq_some rbrace (preprocess s) J hli
                  intro x hx
                  exact hmax x (by omega)
            have hnoRc : ∀ x, charAt ((preprocess s).drop f) x ≠ some rbrace := by
              intro x
              by_cases hx : x < ((preprocess s).drop f).length
              · rw [hchar x hx]
                cases hxz : x with
                | zero =>
                  rw [show f + 0 = f from rfl, hfc]
                  intro hcontra
                  cases hcontra
                | succ x2 => exact hnoR (f + (x2 + 1)) (by omega)
              · unfold charAt
                rw [List.getElem?_eq_none (by omega)]
                intro hcontra
                cases hcontra
            have hgr_c : searchGreedy ((preprocess s).drop f) = none :=
              searchGreedy_none_no_rbrace _ hnoRc
            have hfj_c : searchFenced fjTag ((preprocess s).drop f) = none :=
              no_fenced_slice fjTag (preprocess s) _ f hchar (by omega) (by decide) hfj
            have hfg_c : searchFenced fence3 ((preprocess s).drop f) = none :=
              no_fenced_slice fence3 (preprocess s) _ f hchar (by omega) (by decide) hfg
            rw [hcc] at hfence ⊢
            exact cleanCandidate_fix_point _ hstrip_c hfence hfj_c hfg_c (Or.inr hgr_c) htrim_c
          · have htr : trimToBrace (preprocess s) = preprocess s := by
              unfold trimToBrace
              rw [hfi]
              dsimp only
              rw [if_neg hf0]
            have hcc : cleanCandidate s = preprocess s := by rw [hcc0, htr]
            rw [hcc] at hfence ⊢
            exact cleanCandidate_fix_point _ hts hfence hfj hfg (Or.inr hgr) htr

/-- C9 counterexample: the input of six backquotes and text produces the
error object with raw three backquotes and the text; re-feeding that raw
value strips the fence prefix again and yields a different error object,
so re-feeding does not reproduce the same error object. -/
theorem c9_counterexample :
    _extract_json_from_text "`````` hi" = errObj "``` hi" ∧
    _extract_json_from_text "``` hi" = errObj "hi" ∧
    errObj "hi" ≠ errObj "``` hi" := by
  refine ⟨rfl, rfl, ?_⟩
  intro hcontra
  unfold errObj at hcontra
  simp only [JsonVal.obj.injEq, List.cons.injEq, Prod.mk.injEq, JsonVal.str.injEq] at hcontra
  exact absurd hcontra.2.1.2 (by decide)

/-- C9 amended: whenever JSON recovery fails and the raw value of its error
output does not itself begin with a backquote fence, re-feeding that raw
value yields the identical error object: the same error message with the
same raw value. -/
theorem c9_error_fixed_point_amended :
    ∀ s : String, jsonLoadsList (cleanCandidate s.data) = none →
      (cleanCandidate s.data).take 3 ≠ fence3 →
      _extract_json_from_text (String.mk (cleanCandidate s.data)) =
        errObj (String.mk (cleanCandidate s.data)) := by
  intro s hparse hfence
  unfold _extract_json_from_text
  dsimp only
  rw [cleanCandidate_fixed s.data hfence, hparse]

/-- C9 witness: the amended fixed-point theorem applied at the spec
concrete clearly-non-JSON input. -/
theorem c9_witness :
    _extract_json_from_text (String.mk (cleanCandidate "not json at all".data)) =
      errObj (String.mk (cleanCandidate "not json at all".data)) :=
  c9_error_fixed_point_amended "not json at all" (by rfl) (by decide)
